import Mathlib

/-!
Verification development for the nvs Node.js version manager.

The definitions below shallowly embed the core of the repository (the
version-resolution, install and activation state machine in src/main.go and
src/unnamed/part_000, together with the archive-extraction entry handler).
Pure Go functions become Lean functions over String (a wrapper around
List Char in this Lean version, matching Go byte strings on ASCII data).
Filesystem state is modelled by an explicit record, and operations return the
result together with the successor state and a trace of filesystem events.
Fallible operations return Except values or explicit result codes mirroring
the messages the Go code reports.
-/

deriving instance DecidableEq for Except

/-! ## Character-list helpers (Go strings.Split / strings.Join on one-char separators) -/

/-- Splits a character list at every occurrence of the separator, like the Go
function strings.Split; n separators yield n+1 pieces, and pieces never contain
the separator. -/
def splitSep (sep : Char) : List Char → List (List Char)
  | [] => [[]]
  | c :: rest =>
    match splitSep sep rest with
    | [] => [[]]
    | p :: ps => if c = sep then [] :: p :: ps else (c :: p) :: ps

/-- Joins pieces with the separator, the inverse of splitSep. -/
def joinSep (sep : Char) : List (List Char) → List Char
  | [] => []
  | [p] => p
  | p :: ps => p ++ sep :: joinSep sep ps

/-- Lexicographic comparison of character lists by code point, matching the Go
byte-wise string comparison on ASCII data. -/
def listLt : List Char → List Char → Bool
  | [], [] => false
  | [], _ :: _ => true
  | _ :: _, [] => false
  | a :: as, b :: bs => if a = b then listLt as bs else decide (a < b)

/-- Go strings.HasPrefix: the first string is a leading segment of the second. -/
def strHasPre (p s : String) : Bool := p.data.isPrefixOf s.data

/-! ## Go path cleaning (filepath.Clean and filepath.Join for Unix separators)

filepath.Clean is embedded by its defining rewrite rules: split on the
separator, drop empty and dot elements, resolve dotdot elements against the
preceding element (dropping them at the root, keeping them at the front of a
relative path), and rejoin. -/

/-- Processes path elements with an accumulator stack, implementing the dotdot
resolution rules of the Go function filepath.Clean. -/
def cleanElems (rooted : Bool) : List (List Char) → List (List Char) → List (List Char)
  | acc, [] => acc.reverse
  | acc, e :: rest =>
    if e = [] ∨ e = ['.'] then cleanElems rooted acc rest
    else if e = ['.', '.'] then
      match acc with
      | [] => if rooted then cleanElems rooted [] rest else cleanElems rooted [['.', '.']] rest
      | top :: accT =>
        if top = ['.', '.'] then cleanElems rooted (['.', '.'] :: top :: accT) rest
        else cleanElems rooted accT rest
    else cleanElems rooted (e :: acc) rest

/-- The Go function filepath.Clean on a character list, for the Unix separator. -/
def goCleanL (cs : List Char) : List Char :=
  match cs with
  | [] => ['.']
  | c :: _ =>
    let rooted := c = '/'
    let joined := joinSep '/' (cleanElems rooted [] (splitSep '/' cs))
    if rooted then '/' :: joined
    else if joined = [] then ['.'] else joined

/-- The Go function filepath.Clean on strings. -/
def goClean (s : String) : String := ⟨goCleanL s.data⟩

/-- The Go function filepath.Join for two elements: non-empty elements are
joined with the separator and the result is cleaned. -/
def goJoin (a b : String) : String :=
  if a = "" then (if b = "" then "" else goClean b)
  else if b = "" then goClean a
  else ⟨goCleanL (a.data ++ '/' :: b.data)⟩

/-! ## Archive extraction (extractArchive in src/main.go, lines 262 to 338)

The callback passed to the archives library processes entries one at a time
and aborts on the first error; the embedding runs the same per-entry handler
sequentially over the entry list, for any archive format, recording the
destination paths it materializes. The handler for a regular file first
ensures the parent directory chain of the destination path exists and then
creates the destination file; both touch only the destination path and its
ancestors, so the recorded write target is the destination path. -/

inductive EntryKind
  | dir
  | file
deriving DecidableEq

/-- One archive entry as seen by the extraction callback: its recorded name
inside the archive and whether it is a directory. -/
structure AEntry where
  name : String
  kind : EntryKind
deriving DecidableEq

inductive ArchiveFormat
  | zip
  | tarGz
  | tarXz
deriving DecidableEq

/-- State of one extraction run: destination paths written so far (recorded in
cleaned form, as produced by filepath.Join) and the pending error, where some
name is the invalid-file-path rejection (PathTraversal) for that entry name. -/
structure ExtractRun where
  writes : List String
  err : Option String
deriving DecidableEq

/-- The per-entry handler of extractArchive: join the extraction root with the
entry name, reject the entry when the joined path does not start with the
cleaned root followed by the separator, otherwise create the directory or the
file at the joined path. -/
def processEntry (extractPath : String) (e : AEntry) : Except String (List String) :=
  let destPath := goJoin extractPath e.name
  if ((goClean extractPath).data ++ ['/']).isPrefixOf destPath.data then
    match e.kind with
    | .dir => .ok [destPath]
    | .file => .ok [destPath]
  else .error e.name

/-- Sequential processing of archive entries; the first entry error aborts the
whole extraction, exactly as the archives library stops at a callback error. -/
def extractLoop (extractPath : String) (acc : ExtractRun) : List AEntry → ExtractRun
  | [] => acc
  | e :: rest =>
    match processEntry extractPath e with
    | .ok ws => extractLoop extractPath { acc with writes := acc.writes ++ ws } rest
    | .error n => { acc with err := some n }

/-- extractArchive: create the extraction root, then run the per-entry handler
over every entry. The format argument is unused by the handler, which is the
point: the same path check runs for zip, tar+gzip and tar+xz archives. -/
def runExtract (fmt : ArchiveFormat) (extractPath : String) (entries : List AEntry) : ExtractRun :=
  extractLoop extractPath { writes := [goClean extractPath], err := none } entries

/-- A path is the extraction root itself or lies strictly inside it: it equals
the cleaned root or extends the cleaned root followed by the separator. -/
def insideOrRoot (root p : String) : Bool :=
  p == goClean root || ((goClean root).data ++ ['/']).isPrefixOf p.data

/-- The spec-side predicate of the traversal check: the concatenation of the
destination directory, the separator and the entry name lies strictly inside
the destination directory after path cleaning. -/
def joinedStrictlyInside (root entryName : String) : Bool :=
  ((goClean root).data ++ ['/']).isPrefixOf (goCleanL (root.data ++ '/' :: entryName.data))

/-! ## Version comparison and resolution (src/unnamed/part_000, lines 126 to 181) -/

/-- Parses a run of decimal digits, failing on the empty list or any
non-digit, like the digit loop of the Go function strconv.Atoi. -/
def digitsToNat? (cs : List Char) : Option Nat :=
  if cs ≠ [] ∧ cs.all Char.isDigit then
    some (cs.foldl (fun n c => n * 10 + (c.toNat - 48)) 0)
  else none

/-- The Go function strconv.Atoi with its error ignored, as the callers in
compareVersions do: an optional sign followed by digits, anything else 0. -/
def goAtoiL (cs : List Char) : Int :=
  match cs with
  | [] => 0
  | c :: rest =>
    if c = '-' then -(((digitsToNat? rest).getD 0 : Nat) : Int)
    else if c = '+' then (((digitsToNat? rest).getD 0 : Nat) : Int)
    else (((digitsToNat? (c :: rest)).getD 0 : Nat) : Int)

/-- The loop of compareVersions: walk the common prefix of the two component
lists, return the numeric difference at the first differing pair, otherwise
the length difference. -/
def cmpLoop : List (List Char) → List (List Char) → Int
  | x :: xs, y :: ys =>
    if goAtoiL x ≠ goAtoiL y then goAtoiL x - goAtoiL y else cmpLoop xs ys
  | xs, ys => (xs.length : Int) - (ys.length : Int)

/-- compareVersions from src/unnamed/part_000: split both versions on dots and
run the comparison loop. -/
def compareVersions (v1 v2 : String) : Int :=
  cmpLoop (splitSep '.' v1.data) (splitSep '.' v2.data)

/-- A non-empty all-digit component. -/
def isDigits (p : List Char) : Bool := !p.isEmpty && p.all Char.isDigit

/-- The regular expression of resolveVersion matching exactly three dot
separated digit groups. -/
def isExactSemver (s : String) : Bool :=
  match splitSep '.' s.data with
  | [a, b, c] => isDigits a && isDigits b && isDigits c
  | _ => false

/-- Go strings.TrimPrefix of the letter v. -/
def trimV (s : String) : String := if strHasPre "v" s then ⟨s.data.drop 1⟩ else s

/-- An entry of the upstream index matches the requested token when its
version starts with the letter v, the token and a dot. -/
def isMatch (tok v : String) : Bool := strHasPre ("v" ++ tok ++ ".") v

/-- One step of the maximum-tracking loop of resolveVersion: a matching entry
replaces the running maximum when it is the first match or strictly greater
under compareVersions. -/
def resolveStep (tok : String) (latest v : String) : String :=
  if isMatch tok v then
    if latest = "" then trimV v
    else if compareVersions (trimV v) latest > 0 then trimV v else latest
  else latest

inductive ResolveErr
  | notFound (tok : String)
deriving DecidableEq

/-- resolveVersion from src/unnamed/part_000: an exact three-part version is
returned unchanged without consulting the catalog; otherwise the decoded
catalog (the HTTP fetch and JSON decoding are modelled by passing the decoded
version strings) is scanned for the greatest entry matching the token, and a
missing match is the no-version-found error. -/
def resolveVersion (tok : String) (catalog : List String) : Except ResolveErr String :=
  if isExactSemver tok then .ok tok
  else
    let latestVersion := catalog.foldl (resolveStep tok) ""
    if latestVersion = "" then .error (.notFound tok)
    else .ok latestVersion

/-- Spec-side comparison of numeric component lists: component-wise numeric
comparison, major then minor then patch, a shorter list ranking lower than a
longer list with an equal prefix. -/
def numCmp : List Nat → List Nat → Int
  | x :: xs, y :: ys => if x ≠ y then (x : Int) - (y : Int) else numCmp xs ys
  | xs, ys => (xs.length : Int) - (ys.length : Int)

/-- Every dot-separated component of the string is a non-empty digit run. -/
def digitComponents (s : String) : Bool := (splitSep '.' s.data).all isDigits

/-- The numeric values of the dot-separated components. -/
def numComponents (s : String) : List Nat :=
  (splitSep '.' s.data).map (fun p => (digitsToNat? p).getD 0)

/-! ## Alias resolution for the catalog client

Modelled from the spec: the branch of the version catalog client resolving
the tokens latest, current and lts against the upstream index is part of the
repository variant whose core file is not under src; the interactive
front-end in src/unnamed/part_003 calls that variant and documents the
tokens, and src/unnamed/part_000 contains only the exact-version and
bare-major branches. The definitions below follow the spec wording: the
catalog is ordered newest first, latest and current take the first entry, and
lts takes the first entry whose LTS marker is truthy, where a codename string
counts and the boolean false does not. -/

/-- The LTS marker of an upstream index row: the boolean false or a codename
string. -/
inductive LtsMarker
  | flag (b : Bool)
  | codename (name : String)
deriving DecidableEq

/-- Modelled from the spec: a marker is truthy when it is not the boolean
false; codename strings count. -/
def LtsMarker.truthy : LtsMarker → Bool
  | .flag b => b
  | .codename _ => true

/-- One row of the upstream release index. -/
structure CatalogEntry where
  version : String
  lts : LtsMarker
deriving DecidableEq

/-- Modelled from the spec: alias resolution over the ordered catalog. -/
def resolveAlias (tok : String) (catalog : List CatalogEntry) : Except ResolveErr String :=
  if tok = "latest" ∨ tok = "current" then
    match catalog with
    | [] => .error (.notFound tok)
    | e :: _ => .ok e.version
  else if tok = "lts" then
    match catalog.find? (fun e => e.lts.truthy) with
    | some e => .ok e.version
    | none => .error (.notFound tok)
  else .error (.notFound tok)

/-! ## Release descriptor builder (getNodeRelease in src/main.go, lines 174 to 223) -/

structure NodeRelease where
  version : String
  url : String
  filename : String
  ext : String
deriving DecidableEq

inductive PlatformErr
  | unsupportedPlatform (p : String)
deriving DecidableEq

/-- The architecture normalization table of getNodeRelease; unrecognized
values pass through unchanged. -/
def normalizeArch (arch : String) : String :=
  if arch = "x86_64" ∨ arch = "amd64" then "x64"
  else if arch = "aarch64" ∨ arch = "arm64" then "arm64"
  else if arch = "x86" ∨ arch = "i386" ∨ arch = "ia32" ∨ arch = "386" then "x86"
  else arch

/-- Builds the release record from the resolved platform name, extension and
normalized architecture, with the Sprintf templates of getNodeRelease. -/
def mkRelease (version platformName archName ext : String) : NodeRelease :=
  { version := version
    url := "https://nodejs.org/dist/v" ++ version ++ "/" ++
      ("node-v" ++ version ++ "-" ++ platformName ++ "-" ++ archName ++ "." ++ ext)
    filename := "node-v" ++ version ++ "-" ++ platformName ++ "-" ++ archName ++ "." ++ ext
    ext := ext }

/-- getNodeRelease from src/main.go: empty targets default to the runtime
values, the platform switch picks the platform name and archive extension or
fails for an unsupported platform, and the architecture is normalized. -/
def getNodeRelease (version targetOS targetArch goos goarch : String) :
    Except PlatformErr NodeRelease :=
  let platform := if targetOS = "" then goos else targetOS
  let arch := if targetArch = "" then goarch else targetArch
  if platform = "windows" ∨ platform = "win" then
    .ok (mkRelease version "win" (normalizeArch arch) "zip")
  else if platform = "darwin" ∨ platform = "macos" then
    .ok (mkRelease version "darwin" (normalizeArch arch) "tar.gz")
  else if platform = "linux" then
    .ok (mkRelease version "linux" (normalizeArch arch) "tar.xz")
  else .error (.unsupportedPlatform platform)

/-! ## Version store and activation state machine (src/main.go)

The filesystem under the nvs root is abstracted to the facts the core reads
and writes: which version keys have a directory under versions, which of
those have the expected bin layout, the contents of the current file, which
archive files sit in the nvs directory, and for which key the current-bin
shims were last generated. Operations additionally emit a trace of the
filesystem events they perform, in order. -/

/-- The version key of Install and Use: the bare version for native installs,
or version-os-arch built from the raw user-supplied values (with runtime
defaults for the missing one) when an explicit os or arch was given. -/
def versionKey (version targetOS targetArch goos goarch : String) : String :=
  if targetOS = "" ∧ targetArch = "" then version
  else
    version ++ "-" ++ (if targetOS = "" then goos else targetOS) ++ "-" ++
      (if targetArch = "" then goarch else targetArch)

/-- Abstract state of the nvs directory tree. -/
structure FS where
  versions : List String
  binOf : List String
  currentFile : Option String
  archives : List String
  shimsFor : Option String
deriving DecidableEq

def emptyFS : FS :=
  { versions := [], binOf := [], currentFile := none, archives := [], shimsFor := none }

/-- Adds a name when absent, as creating a directory or file that may already
exist. -/
def insertNew (x : String) (l : List String) : List String :=
  if l.contains x then l else x :: l

/-- Removes every occurrence of a name, as removing a file or directory tree. -/
def eraseAll (x : String) (l : List String) : List String :=
  l.filter (fun y => y ≠ x)

/-- Filesystem events, in the order the operations perform them. -/
inductive Ev
  | download (file : String)
  | extract (file dir : String)
  | removeDirAll (dir : String)
  | removeFile (file : String)
deriving DecidableEq

/-- Outcome oracle for one download: the branches of downloadWithProgress in
src/main.go, lines 226 to 259. -/
inductive DlOutcome
  | netErr
  | badStatus
  | createErr
  | copyErr
  | ok
deriving DecidableEq

/-- Outcome oracle for one extraction. -/
inductive ExOutcome
  | fail
  | ok
deriving DecidableEq

/-- downloadWithProgress: the HTTP error and non-200 branches fail before the
destination file is created; a create failure leaves nothing; a copy failure
happens after the destination file was created and leaves the partial file in
place; success leaves the completed file. -/
def downloadWithProgress (fs : FS) (dest : String) : DlOutcome → Bool × FS
  | .netErr => (false, fs)
  | .badStatus => (false, fs)
  | .createErr => (false, fs)
  | .copyErr => (false, { fs with archives := insertNew dest fs.archives })
  | .ok => (true, { fs with archives := insertNew dest fs.archives })

/-- extractArchive at the store level: the extraction root is created first in
every case; on success the archive file is removed by the extractor, on
failure the partially filled root and the archive are left for the caller. -/
def extractArchiveM (fs : FS) (file dir : String) : ExOutcome → Bool × FS
  | .fail => (false, { fs with versions := insertNew dir fs.versions })
  | .ok =>
    (true,
      { fs with
        versions := insertNew dir fs.versions
        archives := eraseAll file fs.archives })

inductive InstallRes
  | installed
  | alreadyInstalled
  | unsupportedPlatform
  | downloadFailed
  | extractFailed
deriving DecidableEq

/-- Install from src/main.go, lines 341 to 438: compute the version key; an
existing directory is the idempotent no-op success; build the release
descriptor; download the archive into the nvs directory; extract it into the
version directory, removing the version directory and the archive when the
extraction fails; the reorganization and npm-link repair steps touch only the
inside of the version directory and do not change the abstract state. -/
def Install (fs : FS) (version targetOS targetArch goos goarch : String)
    (dl : DlOutcome) (ex : ExOutcome) : InstallRes × FS × List Ev :=
  let key := versionKey version targetOS targetArch goos goarch
  if fs.versions.contains key then (.alreadyInstalled, fs, [])
  else
    match getNodeRelease version targetOS targetArch goos goarch with
    | .error _ => (.unsupportedPlatform, fs, [])
    | .ok rel =>
      let dlRes := downloadWithProgress fs rel.filename dl
      if dlRes.1 = false then (.downloadFailed, dlRes.2, [.download rel.filename])
      else
        let exRes := extractArchiveM dlRes.2 rel.filename key ex
        if exRes.1 = false then
          (.extractFailed,
            { exRes.2 with
              versions := eraseAll key exRes.2.versions
              archives := eraseAll rel.filename exRes.2.archives },
            [.download rel.filename, .extract rel.filename key,
              .removeDirAll key, .removeFile rel.filename])
        else (.installed, exRes.2, [.download rel.filename, .extract rel.filename key])

/-- The outcome Use reports to the user (the Go function prints the failure
message and returns a nil error in the first two cases). -/
inductive UseOutcome
  | switched
  | notInstalled
  | invalidInstallation
deriving DecidableEq

/-- Use from src/main.go, lines 480 to 562: compute the version key; a missing
version directory reports not installed before any state is touched; on
non-Windows a missing bin subdirectory reports an invalid installation, again
before any state is touched; otherwise the current file is written and the
current-bin shim set is wholly regenerated for the key. -/
def Use (fs : FS) (version targetOS targetArch goos goarch : String) : UseOutcome × FS :=
  let key := versionKey version targetOS targetArch goos goarch
  if fs.versions.contains key = false then (.notInstalled, fs)
  else
    let binOk := if goos = "windows" then fs.versions.contains key else fs.binOf.contains key
    if binOk = false then (.invalidInstallation, fs)
    else (.switched, { fs with currentFile := some key, shimsFor := some key })

inductive UninstallRes
  | removed
  | notInstalledNoop
deriving DecidableEq

/-- Uninstall from src/main.go, lines 823 to 843: a missing directory is a
no-op with a notice; otherwise the version directory is removed recursively
first, and only afterwards, when the current file names the removed key, the
current file is deleted. -/
def Uninstall (fs : FS) (version : String) : UninstallRes × FS × List Ev :=
  if fs.versions.contains version = false then (.notInstalledNoop, fs, [])
  else
    let fs1 :=
      { fs with versions := eraseAll version fs.versions, binOf := eraseAll version fs.binOf }
    if fs1.currentFile = some version then
      (.removed, { fs1 with currentFile := none },
        [.removeDirAll version, .removeFile "current"])
    else (.removed, fs1, [.removeDirAll version])

/-- getCurrentVersion and Current: the current file contents, none when the
file is absent. -/
def currentVersion (fs : FS) : Option String := fs.currentFile

def isDownloadEv : Ev → Bool
  | .download _ => true
  | _ => false

def isExtractEv : Ev → Bool
  | .extract _ _ => true
  | _ => false

def countDownloads (tr : List Ev) : Nat := (tr.filter isDownloadEv).length

def countExtracts (tr : List Ev) : Nat := (tr.filter isExtractEv).length

def isClearCurrentEv : Ev → Bool
  | .removeFile f => f == "current"
  | _ => false

def isRemoveDirEv : Ev → Bool
  | .removeDirAll _ => true
  | _ => false

/-- The temporal predicate of the uninstall ordering claim: the current
pointer is cleared strictly before the version directory is removed. -/
def clearedBeforeRemoved (tr : List Ev) : Bool :=
  match tr.findIdx? isClearCurrentEv, tr.findIdx? isRemoveDirEv with
  | some i, some j => decide (i < j)
  | _, _ => false

/-- A store with exactly one installed version that is also current. -/
def fsCur : FS :=
  { versions := ["18.17.0"], binOf := ["18.17.0"], currentFile := some "18.17.0",
    archives := [], shimsFor := none }

/-! ## List command ordering (List in src/main.go, lines 741 to 799) -/

/-- The comparator passed to sort.Slice by List: split both keys on dashes;
when the leading components differ, compare them as strings, otherwise
compare the full keys as strings. -/
def listLess (a b : String) : Bool :=
  let pa := (splitSep '-' a.data).headD []
  let pb := (splitSep '-' b.data).headD []
  if pa ≠ pb then listLt pa pb else listLt a.data b.data

/-- Insertion into a list sorted by listLess. -/
def insertSorted (x : String) : List String → List String
  | [] => [x]
  | y :: ys => if listLess x y then x :: y :: ys else y :: insertSorted x ys

/-- The sort performed by List: for the strict total comparator on distinct
keys the sorted permutation is unique, so insertion sort realizes the result
of sort.Slice. -/
def sortVersions (l : List String) : List String := l.foldr insertSorted []

/-- The synthetic catalog of the spec: two non-LTS 20.x releases, an LTS
release with the Hydrogen codename, and a release whose marker is the
boolean false. -/
def synthCatalog : List CatalogEntry :=
  [⟨"v20.1.0", .flag false⟩, ⟨"v20.0.0", .flag false⟩,
    ⟨"v18.17.0", .codename "Hydrogen"⟩, ⟨"v16.0.0", .flag false⟩]

/-- A store with one installed version 20.5.0 that is active, used to observe
that a failing use call leaves the pre-existing current pointer alone. -/
def fsPre : FS :=
  { versions := ["20.5.0"], binOf := ["20.5.0"], currentFile := some "20.5.0",
    archives := [], shimsFor := some "20.5.0" }

/-! ## Helper lemmas -/

theorem mem_insertNew (x : String) (l : List String) : x ∈ insertNew x l := by
  unfold insertNew
  by_cases h : x ∈ l
  · simp [h]
  · simp [h]

theorem not_mem_eraseAll (x : String) (l : List String) : x ∉ eraseAll x l := by
  simp [eraseAll, List.mem_filter]

theorem cmpLoop_self (xs : List (List Char)) : cmpLoop xs xs = 0 := by
  induction xs with
  | nil => simp [cmpLoop]
  | cons x xs ih => simp [cmpLoop, ih]

theorem cmpLoop_antisymm (xs ys : List (List Char)) : cmpLoop xs ys = -cmpLoop ys xs := by
  induction xs generalizing ys with
  | nil => cases ys <;> simp [cmpLoop] <;> try omega
  | cons x xs ih =>
    cases ys with
    | nil => simp [cmpLoop]; try omega
    | cons y ys =>
      by_cases h : goAtoiL x = goAtoiL y
      · simp [cmpLoop, h, ih ys]
      · simp [cmpLoop, h, Ne.symm h]
        try omega

theorem cmpLoop_trans_nonneg (a b c : List (List Char)) :
    0 ≤ cmpLoop a b → 0 ≤ cmpLoop b c → 0 ≤ cmpLoop a c := by
  induction a generalizing b c with
  | nil =>
    intro h1 h2
    cases b with
    | nil => exact h2
    | cons y ys => simp [cmpLoop] at h1; omega
  | cons x xs ih =>
    intro h1 h2
    cases c with
    | nil => simp [cmpLoop]; omega
    | cons z zs =>
      cases b with
      | nil => simp [cmpLoop] at h2; omega
      | cons y ys =>
        simp only [cmpLoop] at h1 h2 ⊢
        by_cases e1 : goAtoiL x = goAtoiL y <;> by_cases e2 : goAtoiL y = goAtoiL z <;>
          by_cases e3 : goAtoiL x = goAtoiL z <;>
          simp [e1, e2, e3] at h1 h2 ⊢ <;>
          first
          | omega
          | exact ih ys zs h1 h2

theorem compareVersions_self (v : String) : compareVersions v v = 0 :=
  cmpLoop_self _

theorem compareVersions_antisymm (a b : String) : compareVersions a b = -compareVersions b a :=
  cmpLoop_antisymm _ _

theorem compareVersions_trans_nonneg (a b c : String) :
    0 ≤ compareVersions a b → 0 ≤ compareVersions b c → 0 ≤ compareVersions a c :=
  cmpLoop_trans_nonneg _ _ _

theorem trimV_ne_empty (tok v : String) (h : isMatch tok v = true) : trimV v ≠ "" := by
  unfold isMatch strHasPre at h
  have hdata : ("v" ++ tok ++ ".").data = 'v' :: (tok.data ++ ['.']) := by
    show ("v".data ++ tok.data) ++ ".".data = _
    simp
  rw [hdata] at h
  match hv : v.data with
  | [] => rw [hv] at h; simp [List.isPrefixOf] at h
  | c :: rest =>
    rw [hv] at h
    simp [List.isPrefixOf] at h
    obtain ⟨hcv, hpre⟩ := h
    have hrest : rest ≠ [] := by
      intro he
      rw [he] at hpre
      cases htok : tok.data ++ ['.'] with
      | nil => simp at htok
      | cons a as => rw [htok] at hpre; simp [List.isPrefixOf] at hpre
    have hv1 : strHasPre "v" v = true := by
      unfold strHasPre
      rw [hv]
      show List.isPrefixOf ['v'] (c :: rest) = true
      simp [List.isPrefixOf]
      exact hcv
    unfold trimV
    rw [hv1]
    simp [hv]
    intro hcon
    have : (⟨rest⟩ : String).data = ("" : String).data := by rw [hcon]
    simp at this
    exact hrest this

theorem goJoin_data (root name : String) (hroot : root ≠ "") (hname : name ≠ "") :
    (goJoin root name).data = goCleanL (root.data ++ '/' :: name.data) := by
  simp [goJoin, hroot, hname]

theorem processEntry_pass (root : String) (e : AEntry) (hroot : root ≠ "")
    (hname : e.name ≠ "") (h : joinedStrictlyInside root e.name = true) :
    processEntry root e = .ok [goJoin root e.name] := by
  have hck : ((goClean root).data ++ ['/']).isPrefixOf (goJoin root e.name).data = true := by
    rw [goJoin_data root e.name hroot hname]; exact h
  cases hk : e.kind <;> simp [processEntry, hck, hk]

theorem processEntry_reject (root : String) (e : AEntry) (hroot : root ≠ "")
    (hname : e.name ≠ "") (h : joinedStrictlyInside root e.name = false) :
    processEntry root e = .error e.name := by
  have hck : ((goClean root).data ++ ['/']).isPrefixOf (goJoin root e.name).data = false := by
    rw [goJoin_data root e.name hroot hname]; exact h
  simp [processEntry, hck]

theorem insideOrRoot_of_pass (root name : String) (hroot : root ≠ "") (hname : name ≠ "")
    (h : joinedStrictlyInside root name = true) :
    insideOrRoot root (goJoin root name) = true := by
  unfold insideOrRoot
  rw [goJoin_data root name hroot hname]
  unfold joinedStrictlyInside at h
  simp [h]

theorem extractLoop_spec (root : String) (hroot : root ≠ "") :
    ∀ (entries : List AEntry) (acc : ExtractRun),
      (∀ e ∈ entries, e.name ≠ "") →
      acc.err = none →
      (∀ p ∈ acc.writes, insideOrRoot root p = true) →
      (∀ p ∈ (extractLoop root acc entries).writes, insideOrRoot root p = true) ∧
      ((extractLoop root acc entries).err = none →
        ∀ e ∈ entries, joinedStrictlyInside root e.name = true) ∧
      (∀ n, (extractLoop root acc entries).err = some n →
        ∃ e ∈ entries, e.name = n ∧ joinedStrictlyInside root e.name = false) := by
  intro entries
  induction entries with
  | nil =>
    intro acc hn herr hw
    refine ⟨hw, by simp, ?_⟩
    intro n hcon
    rw [show extractLoop root acc [] = acc from rfl, herr] at hcon
    cases hcon
  | cons e rest ih =>
    intro acc hn herr hw
    have hname : e.name ≠ "" := hn e (by simp)
    by_cases hc : joinedStrictlyInside root e.name = true
    · have hstep := processEntry_pass root e hroot hname hc
      have hloop : extractLoop root acc (e :: rest) =
          extractLoop root { acc with writes := acc.writes ++ [goJoin root e.name] } rest := by
        simp [extractLoop, hstep]
      rw [hloop]
      have hw2 : ∀ p ∈ acc.writes ++ [goJoin root e.name], insideOrRoot root p = true := by
        intro p hp
        rcases List.mem_append.mp hp with h | h
        · exact hw p h
        · rw [List.mem_singleton.mp h]
          exact insideOrRoot_of_pass root e.name hroot hname hc
      obtain ⟨p1, p2, p3⟩ := ih { acc with writes := acc.writes ++ [goJoin root e.name] }
        (fun x hx => hn x (by simp [hx])) herr hw2
      refine ⟨p1, ?_, ?_⟩
      · intro hnone x hx
        rcases List.mem_cons.mp hx with h | h
        · subst h; exact hc
        · exact p2 hnone x h
      · intro n hsome
        obtain ⟨x, hx, hxn, hxc⟩ := p3 n hsome
        exact ⟨x, by simp [hx], hxn, hxc⟩
    · have hc2 : joinedStrictlyInside root e.name = false := by
        simpa using hc
      have hstep := processEntry_reject root e hroot hname hc2
      have hloop : extractLoop root acc (e :: rest) = { acc with err := some e.name } := by
        simp [extractLoop, hstep]
      rw [hloop]
      refine ⟨hw, ?_, ?_⟩
      · intro hnone
        simp at hnone
      · intro n hsome
        simp at hsome
        exact ⟨e, by simp, hsome, hc2⟩

/-- C1: for every archive entry, when the path obtained by joining the
destination directory with the entry name does not lie strictly inside the
destination directory after path cleaning, the extraction run fails with the
invalid-file-path rejection (PathTraversal) naming such an entry, and every
path the run writes is the destination root or lies strictly inside it; the
same per-entry check runs for every archive format, which the quantification
over the format argument records. -/
theorem extract_traversal_spec (fmt : ArchiveFormat) (extractPath : String)
    (entries : List AEntry) (hroot : extractPath ≠ "")
    (hnames : ∀ e ∈ entries, e.name ≠ "") :
    (∀ p ∈ (runExtract fmt extractPath entries).writes,
      insideOrRoot extractPath p = true) ∧
    (∀ e ∈ entries, joinedStrictlyInside extractPath e.name = false →
      ∃ e2 ∈ entries, (runExtract fmt extractPath entries).err = some e2.name ∧
        joinedStrictlyInside extractPath e2.name = false) := by
  have hinit : ∀ p ∈ [goClean extractPath], insideOrRoot extractPath p = true := by
    intro p hp
    rw [List.mem_singleton.mp hp]
    simp [insideOrRoot]
  obtain ⟨p1, p2, p3⟩ := extractLoop_spec extractPath hroot entries
    { writes := [goClean extractPath], err := none } hnames rfl hinit
  rw [show extractLoop extractPath { writes := [goClean extractPath], err := none } entries =
      runExtract fmt extractPath entries from rfl] at p1 p2 p3
  refine ⟨p1, ?_⟩
  intro e he hbad
  cases herr : (runExtract fmt extractPath entries).err with
  | none =>
    have := p2 herr e he
    rw [hbad] at this
    cases this
  | some n =>
    obtain ⟨e2, he2, hn2, hc2⟩ := p3 n herr
    exact ⟨e2, he2, congrArg some hn2.symm, hc2⟩

/-- C1 witness: a crafted zip entry named ../../evil.txt is rejected with the
PathTraversal error and every write of the run stays at or inside the
destination root. -/
theorem extract_traversal_witness :
    (∀ p ∈ (runExtract .zip "/nvs/versions/18.17.0"
        [⟨"../../evil.txt", .file⟩]).writes,
      insideOrRoot "/nvs/versions/18.17.0" p = true) ∧
    (runExtract .zip "/nvs/versions/18.17.0" [⟨"../../evil.txt", .file⟩]).err =
      some "../../evil.txt" := by
  have h := extract_traversal_spec .zip "/nvs/versions/18.17.0"
    [⟨"../../evil.txt", .file⟩] (by decide) (by decide)
  exact ⟨h.1, by decide⟩

theorem foldl_resolveStep_ne (tok : String) (l : List String) :
    ∀ acc : String, acc ≠ "" →
      l.foldl (resolveStep tok) acc ≠ "" ∧
      (l.foldl (resolveStep tok) acc = acc ∨
        ∃ v ∈ l, isMatch tok v = true ∧ l.foldl (resolveStep tok) acc = trimV v) ∧
      0 ≤ compareVersions (l.foldl (resolveStep tok) acc) acc ∧
      (∀ v ∈ l, isMatch tok v = true →
        0 ≤ compareVersions (l.foldl (resolveStep tok) acc) (trimV v)) := by
  induction l with
  | nil =>
    intro acc hacc
    refine ⟨hacc, .inl rfl, ?_, by simp⟩
    simp [compareVersions_self]
  | cons v l ih =>
    intro acc hacc
    rw [List.foldl_cons]
    by_cases hm : isMatch tok v = true
    · by_cases hgt : compareVersions (trimV v) acc > 0
      · have hstep : resolveStep tok acc v = trimV v := by
          simp [resolveStep, hm, hacc, hgt]
        rw [hstep]
        have hne := trimV_ne_empty tok v hm
        obtain ⟨rne, rmem, rge, rall⟩ := ih (trimV v) hne
        refine ⟨rne, ?_, ?_, ?_⟩
        · rcases rmem with h | ⟨w, hw, hmw, hr⟩
          · exact .inr ⟨v, by simp, hm, h⟩
          · exact .inr ⟨w, by simp [hw], hmw, hr⟩
        · exact compareVersions_trans_nonneg _ _ _ rge (le_of_lt hgt)
        · intro w hw hmw
          rcases List.mem_cons.mp hw with h | h
          · subst h; exact rge
          · exact rall w h hmw
      · have hstep : resolveStep tok acc v = acc := by
          simp [resolveStep, hm, hacc, hgt]
        rw [hstep]
        obtain ⟨rne, rmem, rge, rall⟩ := ih acc hacc
        refine ⟨rne, ?_, rge, ?_⟩
        · rcases rmem with h | ⟨w, hw, hmw, hr⟩
          · exact .inl h
          · exact .inr ⟨w, by simp [hw], hmw, hr⟩
        · intro w hw hmw
          rcases List.mem_cons.mp hw with h | h
          · subst h
            have hle : 0 ≤ compareVersions acc (trimV w) := by
              rw [compareVersions_antisymm]
              omega
            exact compareVersions_trans_nonneg _ _ _ rge hle
          · exact rall w h hmw
    · have hstep : resolveStep tok acc v = acc := by
        simp [resolveStep, hm]
      rw [hstep]
      obtain ⟨rne, rmem, rge, rall⟩ := ih acc hacc
      refine ⟨rne, ?_, rge, ?_⟩
      · rcases rmem with h | ⟨w, hw, hmw, hr⟩
        · exact .inl h
        · exact .inr ⟨w, by simp [hw], hmw, hr⟩
      · intro w hw hmw
        rcases List.mem_cons.mp hw with h | h
        · subst h; simp [hm] at hmw
        · exact rall w h hmw

theorem foldl_resolveStep_empty (tok : String) (l : List String) :
    (l.foldl (resolveStep tok) "" = "" ∧ ∀ v ∈ l, isMatch tok v = false) ∨
    ((∃ v ∈ l, isMatch tok v = true ∧ l.foldl (resolveStep tok) "" = trimV v) ∧
      l.foldl (resolveStep tok) "" ≠ "" ∧
      (∀ v ∈ l, isMatch tok v = true →
        0 ≤ compareVersions (l.foldl (resolveStep tok) "") (trimV v))) := by
  induction l with
  | nil => exact .inl ⟨rfl, by simp⟩
  | cons v l ih =>
    rw [List.foldl_cons]
    by_cases hm : isMatch tok v = true
    · right
      have hstep : resolveStep tok "" v = trimV v := by
        simp [resolveStep, hm]
      rw [hstep]
      have hne := trimV_ne_empty tok v hm
      obtain ⟨rne, rmem, rge, rall⟩ := foldl_resolveStep_ne tok l (trimV v) hne
      refine ⟨?_, rne, ?_⟩
      · rcases rmem with h | ⟨w, hw, hmw, hr⟩
        · exact ⟨v, by simp, hm, h⟩
        · exact ⟨w, by simp [hw], hmw, hr⟩
      · intro w hw hmw
        rcases List.mem_cons.mp hw with h | h
        · subst h; exact rge
        · exact rall w h hmw
    · have hstep : resolveStep tok "" v = "" := by
        simp [resolveStep, hm]
      rw [hstep]
      rcases ih with ⟨h1, h2⟩ | ⟨hex, hne, hall⟩
      · left
        refine ⟨h1, ?_⟩
        intro w hw
        rcases List.mem_cons.mp hw with h | h
        · subst h; simpa using hm
        · exact h2 w h
      · right
        refine ⟨?_, hne, ?_⟩
        · obtain ⟨w, hw, hmw, hr⟩ := hex
          exact ⟨w, by simp [hw], hmw, hr⟩
        · intro w hw hmw
          rcases List.mem_cons.mp hw with h | h
          · subst h; simp [hm] at hmw
          · exact hall w h hmw

theorem goAtoiL_digit (p : List Char) (h : isDigits p = true) :
    goAtoiL p = (((digitsToNat? p).getD 0 : Nat) : Int) := by
  match p with
  | [] => simp [isDigits] at h
  | c :: rest =>
    have hc : c.isDigit = true := by
      simp [isDigits] at h
      exact h.1
    have h1 : c ≠ '-' := by
      intro e; subst e; exact absurd hc (by decide)
    have h2 : c ≠ '+' := by
      intro e; subst e; exact absurd hc (by decide)
    simp [goAtoiL, h1, h2]

theorem cmpLoop_digit (ps : List (List Char)) :
    ∀ qs : List (List Char), ps.all isDigits = true → qs.all isDigits = true →
      cmpLoop ps qs =
        numCmp (ps.map (fun p => (digitsToNat? p).getD 0))
          (qs.map (fun p => (digitsToNat? p).getD 0)) := by
  induction ps with
  | nil =>
    intro qs _ _
    cases qs <;> simp [cmpLoop, numCmp]
  | cons x xs ih =>
    intro qs hp hq
    cases qs with
    | nil => simp [cmpLoop, numCmp]
    | cons y ys =>
      simp only [List.all_cons, Bool.and_eq_true] at hp hq
      have hx := goAtoiL_digit x hp.1
      have hy := goAtoiL_digit y hq.1
      simp only [cmpLoop, numCmp, List.map_cons, hx, hy]
      by_cases e : ((digitsToNat? x).getD 0 : Nat) = (digitsToNat? y).getD 0
      · simp [e, ih ys hp.2 hq.2]
      · have : (((digitsToNat? x).getD 0 : Nat) : Int) ≠ ((digitsToNat? y).getD 0 : Nat) := by
          omega
        simp [e, this]

theorem compareVersions_digit (a b : String)
    (ha : digitComponents a = true) (hb : digitComponents b = true) :
    compareVersions a b = numCmp (numComponents a) (numComponents b) :=
  cmpLoop_digit _ _ ha hb

/-- C4: for a bare-major token (any token outside the exact three-part form),
resolution over the decoded catalog fails with NotFound when no entry version
starts with the letter v, the token and a dot, and otherwise returns the
trimmed version of a matching entry that is greatest under compareVersions
among all matching entries; on versions whose dot components are non-empty
digit runs, compareVersions coincides with component-wise numeric comparison
in which a shorter component list ranks below a longer one with an equal
prefix. -/
theorem resolveVersion_bare_major_spec (tok : String) (catalog : List String)
    (hM : isExactSemver tok = false) :
    ((∀ v ∈ catalog, isMatch tok v = false) →
      resolveVersion tok catalog = .error (.notFound tok)) ∧
    (∀ w, resolveVersion tok catalog = .ok w →
      (∃ v ∈ catalog, isMatch tok v = true ∧ w = trimV v) ∧
      (∀ v ∈ catalog, isMatch tok v = true → 0 ≤ compareVersions w (trimV v))) ∧
    (∀ a b, digitComponents a = true → digitComponents b = true →
      compareVersions a b = numCmp (numComponents a) (numComponents b)) := by
  refine ⟨?_, ?_, fun a b ha hb => compareVersions_digit a b ha hb⟩
  · intro hall
    have hz : catalog.foldl (resolveStep tok) "" = "" := by
      rcases foldl_resolveStep_empty tok catalog with ⟨h1, _⟩ | ⟨⟨v, hv, hmv, _⟩, _, _⟩
      · exact h1
      · rw [hall v hv] at hmv; exact absurd hmv (by simp)
    simp [resolveVersion, hM, hz]
  · intro w hw
    unfold resolveVersion at hw
    rw [if_neg (by simp [hM])] at hw
    rcases foldl_resolveStep_empty tok catalog with ⟨h1, _⟩ | ⟨⟨v, hv, hmv, hr⟩, hne, hall⟩
    · rw [h1] at hw; simp at hw
    · rw [if_neg hne] at hw
      have hwr : w = catalog.foldl (resolveStep tok) "" := by
        cases hw; rfl
      subst hwr
      exact ⟨⟨v, hv, hmv, hr⟩, hall⟩

/-- C4 witness: over the synthetic catalog the token 20 resolves to 20.1.0,
which dominates every matching entry under compareVersions, and the token 99
fails with NotFound. -/
theorem resolveVersion_bare_major_witness :
    resolveVersion "20" ["v20.1.0", "v20.0.0", "v18.17.0", "v16.0.0"] = .ok "20.1.0" ∧
    (∀ v ∈ ["v20.1.0", "v20.0.0", "v18.17.0", "v16.0.0"], isMatch "20" v = true →
      0 ≤ compareVersions "20.1.0" (trimV v)) ∧
    resolveVersion "99" ["v20.1.0", "v20.0.0", "v18.17.0", "v16.0.0"] =
      .error (.notFound "99") := by
  have h := (resolveVersion_bare_major_spec "20" ["v20.1.0", "v20.0.0", "v18.17.0", "v16.0.0"]
    (by decide)).2.1 "20.1.0" (by decide)
  have h99 := (resolveVersion_bare_major_spec "99" ["v20.1.0", "v20.0.0", "v18.17.0", "v16.0.0"]
    (by decide)).1 (by decide)
  exact ⟨by decide, h.2, h99⟩

/-- C3: over any catalog ordered newest first, the tokens latest and current
resolve to the version of the first entry, and the token lts resolves to the
version of the first entry whose LTS marker is truthy (a codename string
counts, the boolean false does not), failing with NotFound when no entry has
a truthy marker. The resolver is modelled from the spec because the alias
branch of the catalog client is not under src. -/
theorem resolveAlias_spec (catalog : List CatalogEntry) :
    (∀ e rest, catalog = e :: rest →
      resolveAlias "latest" catalog = .ok e.version ∧
      resolveAlias "current" catalog = .ok e.version) ∧
    (∀ pre e post, catalog = pre ++ e :: post → (∀ x ∈ pre, x.lts.truthy = false) →
      e.lts.truthy = true → resolveAlias "lts" catalog = .ok e.version) ∧
    ((∀ x ∈ catalog, x.lts.truthy = false) →
      resolveAlias "lts" catalog = .error (.notFound "lts")) := by
  refine ⟨?_, ?_, ?_⟩
  · intro e rest h
    subst h
    constructor <;> simp [resolveAlias]
  · intro pre e post h hpre he
    subst h
    induction pre with
    | nil => simp [resolveAlias, List.find?, he]
    | cons x l ih =>
      have hx := hpre x (by simp)
      have ih2 := ih (fun y hy => hpre y (by simp [hy]))
      simp [resolveAlias, List.find?, hx] at ih2 ⊢
      exact ih2
  · intro h
    have hnone : catalog.find? (fun e => e.lts.truthy) = none := by
      rw [List.find?_eq_none]
      intro x hx
      simp [h x hx]
    simp [resolveAlias, hnone]

/-- C3 witness: on the synthetic catalog of the spec, latest and current give
v20.1.0 and lts gives v18.17.0, skipping the two entries whose marker is the
boolean false. -/
theorem resolveAlias_spec_witness :
    resolveAlias "latest" synthCatalog = .ok "v20.1.0" ∧
    resolveAlias "current" synthCatalog = .ok "v20.1.0" ∧
    resolveAlias "lts" synthCatalog = .ok "v18.17.0" := by
  have h := resolveAlias_spec synthCatalog
  have hlat := h.1 ⟨"v20.1.0", .flag false⟩
    [⟨"v20.0.0", .flag false⟩, ⟨"v18.17.0", .codename "Hydrogen"⟩, ⟨"v16.0.0", .flag false⟩] rfl
  have hlts := h.2.1 [⟨"v20.1.0", .flag false⟩, ⟨"v20.0.0", .flag false⟩]
    ⟨"v18.17.0", .codename "Hydrogen"⟩ [⟨"v16.0.0", .flag false⟩] rfl (by decide) (by decide)
  exact ⟨hlat.1, hlat.2, hlts⟩

/-- C9: the release descriptor builder is a pure function of the version, the
target platform and the target architecture: windows and win map to the win
platform name with the zip extension, darwin and macos to darwin with tar.gz,
linux to linux with tar.xz, any other explicit platform fails with
UnsupportedPlatform; the filename follows the node-v template over the
normalized architecture and the url prepends the nodejs.org dist prefix. -/
theorem getNodeRelease_spec :
    (∀ v os arch goos goarch : String, os = "windows" ∨ os = "win" → arch ≠ "" →
      getNodeRelease v os arch goos goarch =
        .ok { version := v,
              url := "https://nodejs.org/dist/v" ++ v ++ "/" ++
                ("node-v" ++ v ++ "-" ++ "win" ++ "-" ++ normalizeArch arch ++ "." ++ "zip"),
              filename := "node-v" ++ v ++ "-" ++ "win" ++ "-" ++ normalizeArch arch ++ "." ++ "zip",
              ext := "zip" }) ∧
    (∀ v os arch goos goarch : String, os = "darwin" ∨ os = "macos" → arch ≠ "" →
      getNodeRelease v os arch goos goarch =
        .ok { version := v,
              url := "https://nodejs.org/dist/v" ++ v ++ "/" ++
                ("node-v" ++ v ++ "-" ++ "darwin" ++ "-" ++ normalizeArch arch ++ "." ++ "tar.gz"),
              filename := "node-v" ++ v ++ "-" ++ "darwin" ++ "-" ++ normalizeArch arch ++ "." ++ "tar.gz",
              ext := "tar.gz" }) ∧
    (∀ v os arch goos goarch : String, os = "linux" → arch ≠ "" →
      getNodeRelease v os arch goos goarch =
        .ok { version := v,
              url := "https://nodejs.org/dist/v" ++ v ++ "/" ++
                ("node-v" ++ v ++ "-" ++ "linux" ++ "-" ++ normalizeArch arch ++ "." ++ "tar.xz"),
              filename := "node-v" ++ v ++ "-" ++ "linux" ++ "-" ++ normalizeArch arch ++ "." ++ "tar.xz",
              ext := "tar.xz" }) ∧
    (∀ v os arch goos goarch : String, os ≠ "" → os ≠ "windows" → os ≠ "win" → os ≠ "darwin" →
      os ≠ "macos" → os ≠ "linux" →
      getNodeRelease v os arch goos goarch = .error (.unsupportedPlatform os)) := by
  refine ⟨?_, ?_, ?_, ?_⟩
  · intro v os arch goos goarch hos harch
    rcases hos with h | h <;> subst h <;> simp [getNodeRelease, mkRelease, harch]
  · intro v os arch goos goarch hos harch
    rcases hos with h | h <;> subst h <;> simp [getNodeRelease, mkRelease, harch]
  · intro v os arch goos goarch hos harch
    subst hos
    simp [getNodeRelease, mkRelease, harch]
  · intro v os arch goos goarch h0 h1 h2 h3 h4 h5
    simp [getNodeRelease, h0, h1, h2, h3, h4, h5]

/-- C9 witness: the three table rows of the spec, including the unsupported
bogus platform. -/
theorem getNodeRelease_spec_witness :
    getNodeRelease "18.17.0" "linux" "amd64" "linux" "amd64" =
      .ok { version := "18.17.0",
            url := "https://nodejs.org/dist/v18.17.0/node-v18.17.0-linux-x64.tar.xz",
            filename := "node-v18.17.0-linux-x64.tar.xz", ext := "tar.xz" } ∧
    getNodeRelease "20.5.0" "windows" "amd64" "linux" "amd64" =
      .ok { version := "20.5.0",
            url := "https://nodejs.org/dist/v20.5.0/node-v20.5.0-win-x64.zip",
            filename := "node-v20.5.0-win-x64.zip", ext := "zip" } ∧
    getNodeRelease "18.17.0" "bogus" "amd64" "linux" "amd64" =
      .error (.unsupportedPlatform "bogus") := by
  have hlin := getNodeRelease_spec.2.2.1 "18.17.0" "linux" "amd64" "linux" "amd64" rfl (by decide)
  have hwin := getNodeRelease_spec.1 "20.5.0" "windows" "amd64" "linux" "amd64" (.inl rfl) (by decide)
  have hbog := getNodeRelease_spec.2.2.2 "18.17.0" "bogus" "amd64" "linux" "amd64"
    (by decide) (by decide) (by decide) (by decide) (by decide) (by decide)
  refine ⟨?_, ?_, hbog⟩
  · rw [hlin]; decide
  · rw [hwin]; decide

/-- C10: for every cross-platform request the version key is built from the
raw user-supplied os and arch strings with no normalization, while the
downloaded artifact name normalizes the architecture; consequently installing
18.17.0 for linux amd64 succeeds under the key 18.17.0-linux-amd64 with the
artifact node-v18.17.0-linux-x64.tar.xz, and a subsequent use of 18.17.0 for
linux x64 reports not installed and changes nothing. -/
theorem versionKey_raw_mismatch_spec :
    (∀ version targetOS targetArch goos goarch : String, ¬(targetOS = "" ∧ targetArch = "") →
      versionKey version targetOS targetArch goos goarch =
        version ++ "-" ++ (if targetOS = "" then goos else targetOS) ++ "-" ++
          (if targetArch = "" then goarch else targetArch)) ∧
    (Except.map NodeRelease.filename (getNodeRelease "18.17.0" "linux" "amd64" "linux" "amd64") =
      .ok "node-v18.17.0-linux-x64.tar.xz") ∧
    ((Install emptyFS "18.17.0" "linux" "amd64" "linux" "amd64" .ok .ok).1 = .installed) ∧
    (Use (Install emptyFS "18.17.0" "linux" "amd64" "linux" "amd64" .ok .ok).2.1
        "18.17.0" "linux" "x64" "linux" "amd64" =
      (.notInstalled, (Install emptyFS "18.17.0" "linux" "amd64" "linux" "amd64" .ok .ok).2.1)) := by
  refine ⟨?_, by decide, by decide, by decide⟩
  intro version targetOS targetArch goos goarch h
  simp [versionKey, h]

/-- C10 witness: the key built for an explicit linux amd64 request keeps the
raw amd64 spelling. -/
theorem versionKey_raw_mismatch_witness :
    versionKey "18.17.0" "linux" "amd64" "linux" "x64" = "18.17.0-linux-amd64" := by
  have h := versionKey_raw_mismatch_spec.1 "18.17.0" "linux" "amd64" "linux" "x64" (by decide)
  rw [h]; decide

/-- C2 counterexample: a download interrupted while copying the response body
(the copyErr outcome of downloadWithProgress) makes the install run fail, yet
the partially written temporary archive node-v18.17.0-linux-x64.tar.xz is
still present afterwards, so the claim that every failed install removes the
temporary archive is false at this input. -/
theorem install_cleanup_counterexample :
    (Install emptyFS "18.17.0" "" "" "linux" "amd64" .copyErr .ok).1 = .downloadFailed ∧
    "node-v18.17.0-linux-x64.tar.xz" ∈
      (Install emptyFS "18.17.0" "" "" "linux" "amd64" .copyErr .ok).2.1.archives := by
  decide

/-- C2 amended: an install run that fails during extraction leaves no target
version directory and no temporary archive; an install run that fails during
download likewise leaves no target version directory, but may leave a
partially written temporary archive behind. -/
theorem install_cleanup_amended (fs : FS) (version targetOS targetArch goos goarch : String)
    (dl : DlOutcome) (ex : ExOutcome) (rel : NodeRelease)
    (hrel : getNodeRelease version targetOS targetArch goos goarch = .ok rel) :
    ((Install fs version targetOS targetArch goos goarch dl ex).1 = .extractFailed →
      versionKey version targetOS targetArch goos goarch ∉
        (Install fs version targetOS targetArch goos goarch dl ex).2.1.versions ∧
      rel.filename ∉ (Install fs version targetOS targetArch goos goarch dl ex).2.1.archives) ∧
    ((Install fs version targetOS targetArch goos goarch dl ex).1 = .downloadFailed →
      versionKey version targetOS targetArch goos goarch ∉
        (Install fs version targetOS targetArch goos goarch dl ex).2.1.versions) := by
  by_cases h : versionKey version targetOS targetArch goos goarch ∈ fs.versions
  · constructor
    · intro hres
      simp [Install, h] at hres
    · intro hres
      simp [Install, h] at hres
  · constructor
    · intro hres
      cases dl <;> cases ex <;>
        simp_all [Install, h, hrel, downloadWithProgress, extractArchiveM] <;>
        exact ⟨not_mem_eraseAll _ _, not_mem_eraseAll _ _⟩
    · intro hres
      cases dl <;> cases ex <;>
        simp_all [Install, h, hrel, downloadWithProgress, extractArchiveM]

/-- C2 amended witness: a truncated-archive extraction failure for version
18.17.0 leaves neither the version directory key nor the archive file in the
store. -/
theorem install_cleanup_amended_witness :
    versionKey "18.17.0" "" "" "linux" "amd64" ∉
      (Install emptyFS "18.17.0" "" "" "linux" "amd64" .ok .fail).2.1.versions ∧
    (mkRelease "18.17.0" "linux" "x64" "tar.xz").filename ∉
      (Install emptyFS "18.17.0" "" "" "linux" "amd64" .ok .fail).2.1.archives :=
  (install_cleanup_amended emptyFS "18.17.0" "" "" "linux" "amd64" .ok .fail
    (mkRelease "18.17.0" "linux" "x64" "tar.xz") (by decide)).1 (by decide)

/-- C5: calling use on a version key whose directory is missing reports not
installed, and on a key whose directory exists but lacks the bin layout on a
non-Windows host reports an invalid installation; in both cases the store,
including the pre-existing current pointer and the shim set, is completely
unchanged. -/
theorem use_error_no_mutation (fs : FS) (version targetOS targetArch goos goarch : String) :
    (versionKey version targetOS targetArch goos goarch ∉ fs.versions →
      Use fs version targetOS targetArch goos goarch = (.notInstalled, fs)) ∧
    (versionKey version targetOS targetArch goos goarch ∈ fs.versions →
      goos ≠ "windows" →
      versionKey version targetOS targetArch goos goarch ∉ fs.binOf →
      Use fs version targetOS targetArch goos goarch = (.invalidInstallation, fs)) := by
  constructor
  · intro h
    simp [Use, h]
  · intro h1 h2 h3
    simp [Use, h1, h2, h3]

/-- C5 witness: using a non-installed 18.17.0 on a store whose current pointer
names 20.5.0 reports not installed and leaves the pointer at 20.5.0. -/
theorem use_error_no_mutation_witness :
    Use fsPre "18.17.0" "" "" "linux" "amd64" = (.notInstalled, fsPre) ∧
    currentVersion (Use fsPre "18.17.0" "" "" "linux" "amd64").2 = some "20.5.0" := by
  have h := (use_error_no_mutation fsPre "18.17.0" "" "" "linux" "amd64").1 (by decide)
  refine ⟨h, ?_⟩
  rw [h]
  rfl

/-- C6 counterexample: uninstalling the active version 18.17.0 produces the
event trace removeDirAll then removeFile of the current file, so the current
pointer is cleared strictly after the directory removal and the claimed
cleared-first ordering is false at this input (the pointer still holds
afterwards, as the last conjunct shows). -/
theorem uninstall_current_order_counterexample :
    clearedBeforeRemoved (Uninstall fsCur "18.17.0").2.2 = false ∧
    (Uninstall fsCur "18.17.0").2.2 = [.removeDirAll "18.17.0", .removeFile "current"] ∧
    currentVersion (Uninstall fsCur "18.17.0").2.1 = none := by
  decide

/-- C6 amended: when uninstall targets the key the current pointer names, the
version directory is removed first and the current pointer is cleared
afterwards, in that order; the final state holds no current pointer and no
directory for the key, so a subsequent current reports none. -/
theorem uninstall_current_order_amended (fs : FS) (v : String)
    (h1 : v ∈ fs.versions) (h2 : fs.currentFile = some v) :
    Uninstall fs v =
      (.removed,
        { versions := eraseAll v fs.versions, binOf := eraseAll v fs.binOf,
          currentFile := none, archives := fs.archives, shimsFor := fs.shimsFor },
        [.removeDirAll v, .removeFile "current"]) ∧
    currentVersion (Uninstall fs v).2.1 = none ∧
    v ∉ (Uninstall fs v).2.1.versions := by
  refine ⟨?_, ?_, ?_⟩
  · simp [Uninstall, h1, h2]
  · simp [Uninstall, h1, h2, currentVersion]
  · simp [Uninstall, h1, h2]
    exact not_mem_eraseAll v fs.versions

/-- C6 amended witness: uninstalling the active 18.17.0 empties the store,
clears the pointer after removing the directory, and current then reports
none. -/
theorem uninstall_current_order_amended_witness :
    Uninstall fsCur "18.17.0" =
      (.removed,
        { versions := [], binOf := [], currentFile := none, archives := [], shimsFor := none },
        [.removeDirAll "18.17.0", .removeFile "current"]) ∧
    currentVersion (Uninstall fsCur "18.17.0").2.1 = none := by
  have h := uninstall_current_order_amended fsCur "18.17.0" (by decide) rfl
  refine ⟨?_, h.2.1⟩
  rw [h.1]
  decide

/-- C7: on the version set 9.0.0, 18.17.0, 2.0.0 the sort of the list command
orders the keys 18.17.0, 2.0.0, 9.0.0, because the comparator compares the
leading version components as strings; the numeric order 2.0.0, 9.0.0,
18.17.0 the claim requires differs from the computed order. -/
theorem list_sort_lexicographic_at_failing_input :
    sortVersions ["9.0.0", "18.17.0", "2.0.0"] = ["18.17.0", "2.0.0", "9.0.0"] ∧
    sortVersions ["9.0.0", "18.17.0", "2.0.0"] ≠ ["2.0.0", "9.0.0", "18.17.0"] := by
  decide

/-- C8: install is idempotent: when the version key already has a directory,
install returns the no-op success with no download, no extraction and an
unchanged store; and starting from a store without the key, a successful
install performs exactly one download and one extraction, after which a
second identical install is the no-op success on the unchanged store. -/
theorem install_idempotent_spec (fs : FS) (version targetOS targetArch goos goarch : String) :
    (∀ dl ex, versionKey version targetOS targetArch goos goarch ∈ fs.versions →
      Install fs version targetOS targetArch goos goarch dl ex = (.alreadyInstalled, fs, [])) ∧
    (∀ rel, versionKey version targetOS targetArch goos goarch ∉ fs.versions →
      getNodeRelease version targetOS targetArch goos goarch = .ok rel →
      (Install fs version targetOS targetArch goos goarch .ok .ok).1 = .installed ∧
      countDownloads (Install fs version targetOS targetArch goos goarch .ok .ok).2.2 = 1 ∧
      countExtracts (Install fs version targetOS targetArch goos goarch .ok .ok).2.2 = 1 ∧
      Install (Install fs version targetOS targetArch goos goarch .ok .ok).2.1
          version targetOS targetArch goos goarch .ok .ok =
        (.alreadyInstalled, (Install fs version targetOS targetArch goos goarch .ok .ok).2.1, [])) := by
  constructor
  · intro dl ex h
    simp [Install, h]
  · intro rel h hrel
    refine ⟨?_, ?_, ?_, ?_⟩
    · simp [Install, h, hrel, downloadWithProgress, extractArchiveM]
    · simp [Install, h, hrel, downloadWithProgress, extractArchiveM, countDownloads,
        isDownloadEv, List.filter]
    · simp [Install, h, hrel, downloadWithProgress, extractArchiveM, countExtracts,
        isExtractEv, List.filter]
    · have hmem := mem_insertNew (versionKey version targetOS targetArch goos goarch)
        ((downloadWithProgress fs rel.filename .ok).2.versions)
      simp [Install, h, hrel, downloadWithProgress, extractArchiveM] at hmem ⊢
      simp [hmem]

/-- C8 witness: two consecutive installs of 18.17.0 on an empty store perform
one download and one extraction in total, the second call being the no-op
success. -/
theorem install_idempotent_witness :
    (Install emptyFS "18.17.0" "" "" "linux" "amd64" .ok .ok).1 = .installed ∧
    countDownloads (Install emptyFS "18.17.0" "" "" "linux" "amd64" .ok .ok).2.2 = 1 ∧
    countExtracts (Install emptyFS "18.17.0" "" "" "linux" "amd64" .ok .ok).2.2 = 1 ∧
    Install (Install emptyFS "18.17.0" "" "" "linux" "amd64" .ok .ok).2.1
        "18.17.0" "" "" "linux" "amd64" .ok .ok =
      (.alreadyInstalled, (Install emptyFS "18.17.0" "" "" "linux" "amd64" .ok .ok).2.1, []) := by
  have h := (install_idempotent_spec emptyFS "18.17.0" "" "" "linux" "amd64").2
    (mkRelease "18.17.0" "linux" "x64" "tar.xz") (by decide) (by decide)
  exact h
